import Mathlib

/-!
Verification of the DCM reverse-engineering tooling (`tools/` directory):
byte-level key derivation, XOR decryption, repeating-pattern detection,
Shannon-entropy statistics, vertex canonicalization, marker segmentation
and the batch pair-analysis loop.

Bytes are modelled as natural numbers (`Nat`); all byte strings produced
by the tools are lists of naturals.  Fallible Python code (functions that
`raise`) is modelled with `Except String`.  Printed warnings are modelled
as explicitly returned warning values.
-/

/-- `bytes(a ^ b for a, b in zip(x, y))`: pointwise XOR, truncating to the
shorter input, as used throughout the tools. -/
def xorBytes (a b : List Nat) : List Nat :=
  List.zipWith (fun x y => x ^^^ y) a b

/-- `derive_xor_key` from `tools/dcm_decoder.py` (lines 143-148): raises
`ValueError` on a length mismatch, otherwise XORs the two payloads. -/
def derive_xor_key (dcm_vertex_data stl_vertex_data : List Nat) : Except String (List Nat) :=
  if dcm_vertex_data.length = stl_vertex_data.length then
    Except.ok (xorBytes dcm_vertex_data stl_vertex_data)
  else
    Except.error ("Size mismatch: DCM=" ++ toString dcm_vertex_data.length ++
      ", STL=" ++ toString stl_vertex_data.length)

/-- Byte-level core of `decrypt_vertices` from `tools/dcm_decoder.py`
(lines 151-163): checks the key is long enough, then XORs each data byte
with the key byte at the same position.  The subsequent unpacking of the
decrypted bytes into float vertices is elided; the claim under test is
about the byte transformation. -/
def decrypt_vertices (dcm_vertex_data xor_key : List Nat) : Except String (List Nat) :=
  if xor_key.length < dcm_vertex_data.length then
    Except.error ("Key too short: key=" ++ toString xor_key.length ++
      ", data=" ++ toString dcm_vertex_data.length)
  else
    Except.ok (xorBytes dcm_vertex_data xor_key)

/-- Size-mismatch handling of `perform_known_plaintext_attack` in
`tools/known_plaintext_attack.py` (lines 298-303): on differing lengths
both payloads are truncated to the shared minimum and a warning line is
printed; the printed warning is modelled as a returned list of warnings. -/
def kpa_truncate (dcm_data stl_data : List Nat) : List Nat × List Nat × List String :=
  if dcm_data.length = stl_data.length then
    (dcm_data, stl_data, [])
  else
    let min_len := min dcm_data.length stl_data.length
    (dcm_data.take min_len, stl_data.take min_len,
      ["WARNING: Size mismatch! DCM=" ++ toString dcm_data.length ++
        ", STL=" ++ toString stl_data.length])

/-- Size-mismatch handling of `analyze_pair` in
`tools/batch_pair_analyzer.py` (lines 211-217): on differing lengths the
`error` field of the record is set and both payloads are truncated to the
shared minimum; analysis then continues on the truncated data. -/
def analyze_pair_truncate (dcm_vertex_data stl_vertex_data : List Nat) :
    List Nat × List Nat × Option String :=
  if dcm_vertex_data.length = stl_vertex_data.length then
    (dcm_vertex_data, stl_vertex_data, none)
  else
    let min_len := min dcm_vertex_data.length stl_vertex_data.length
    (dcm_vertex_data.take min_len, stl_vertex_data.take min_len,
      some ("Size mismatch: DCM=" ++ toString dcm_vertex_data.length ++
        ", STL=" ++ toString stl_vertex_data.length))

/-- `calculate_entropy` from `tools/known_plaintext_attack.py` (lines
70-76) and `tools/batch_pair_analyzer.py` (lines 81-87): Shannon entropy
in bits, `-sum((c/total) * log2(c/total))` over the byte counter's
entries.  The counter's distinct keys are the elements of `data.toFinset`
and every counted value `c` is positive, so the guard `if c > 0` is
always taken.  Python floats are modelled as real numbers. -/
noncomputable def calculate_entropy (data : List Nat) : ℝ :=
  if data.length = 0 then 0
  else
    -∑ b ∈ data.toFinset,
      ((data.count b : ℝ) / (data.length : ℝ)) *
        Real.logb 2 ((data.count b : ℝ) / (data.length : ℝ))

/-- The inner loop of `find_repeating_pattern` in
`tools/known_plaintext_attack.py` (lines 83-91): pattern length `k` is
accepted when `data[i] == pattern[i % k]` for every index `i` of the
whole buffer, where `pattern = data[:k]` (for `i < k` the check holds
trivially, so the test is `data[i] == data[i % k]` for all `i`). -/
def isPeriodicWith (data : List Nat) (k : Nat) : Bool :=
  (List.range data.length).all (fun i => data.getD i 0 == data.getD (i % k) 0)

/-- `find_repeating_pattern` from `tools/known_plaintext_attack.py`
(lines 79-97) with its default arguments `min_len = 1`, `max_len = 256`:
tries pattern lengths `1, 2, ..., min(256, len(data) // 2)` in order and
stops at the first (hence shortest) full-buffer period; returns that
period, or `none` when no candidate length repeats.  The accompanying
pattern bytes in the Python result dict are `data[:k] = data.take k`. -/
def find_repeating_pattern (data : List Nat) : Option Nat :=
  (List.range' 1 (min 256 (data.length / 2))).find? (fun k => isPeriodicWith data k)

/-- The pattern stored by `analyze_xor_key` for a found shortest period
`k` (`tools/known_plaintext_attack.py`, line 113):
`repeating[shortest][:64]`, i.e. the first 64 bytes of `data[:k]`.  The
decryption validation replays with this stored pattern and
`pattern_len = len(pattern)` (line 377), so for periods longer than 64
bytes the replay only uses the period's first 64 bytes. -/
def repeating_pattern_stored (data : List Nat) (k : Nat) : List Nat :=
  (data.take k).take 64

/-- The replay step of the decryption validation in
`perform_known_plaintext_attack` (`tools/known_plaintext_attack.py`,
line 380): `bytes(dcm_data[i] ^ pattern[i % pattern_len] for i in
range(len(dcm_data)))`. -/
def replay_decrypt (dcm_data pattern : List Nat) : List Nat :=
  (List.range dcm_data.length).map
    (fun i => dcm_data.getD i 0 ^^^ pattern.getD (i % pattern.length) 0)

/-- `match_count` of the decryption validation
(`tools/known_plaintext_attack.py`, line 383):
`sum(1 for a, b in zip(decrypted, stl_data) if a == b)`. -/
def match_count (decrypted stl_data : List Nat) : Nat :=
  (List.zip decrypted stl_data).countP (fun p => p.1 == p.2)

/-- The success gate of the decryption validation
(`tools/known_plaintext_attack.py`, line 389): success is reported when
`match_pct > 99.9` where `match_pct = match_count / len(stl_data) * 100`.
The comparison of the two rational quantities is stated over integers:
`match_count / len * 100 > 99.9` iff `1000 * match_count > 999 * len`. -/
def kpa_reports_success (decrypted stl_data : List Nat) : Bool :=
  decide (999 * stl_data.length < 1000 * match_count decrypted stl_data)

/-- Python slice `l[off:off+len]`. -/
def byteSlice (l : List Nat) (off len : Nat) : List Nat :=
  (l.drop off).take len

/-- Per-block XOR key of `analyze_vertex_by_vertex`
(`tools/known_plaintext_attack.py`, lines 252-257): the XOR of the
`i`-th 12-byte block of the two payloads. -/
def vertex_block_key (dcm_data stl_data : List Nat) (i : Nat) : List Nat :=
  xorBytes (byteSlice dcm_data (12 * i) 12) (byteSlice stl_data (12 * i) 12)

/-- The `vertex_keys` list of `analyze_vertex_by_vertex`
(`tools/known_plaintext_attack.py`, lines 251-257): block keys are
computed only for `i in range(min(100, num_vertices))` where
`num_vertices = len(dcm_data) // 12`. -/
def vertex_keys (dcm_data stl_data : List Nat) : List (List Nat) :=
  (List.range (min 100 (dcm_data.length / 12))).map (vertex_block_key dcm_data stl_data)

/-- The `same_key_per_vertex` result of `analyze_vertex_by_vertex`
(`tools/known_plaintext_attack.py`, lines 259-262):
`len(set(vertex_keys)) == 1`; the cardinality of the set of keys is the
length of the deduplicated list. -/
def same_key_per_vertex (dcm_data stl_data : List Nat) : Bool :=
  (vertex_keys dcm_data stl_data).dedup.length == 1

/-- The segmentation loop shared by `analyze_segment_patterns` and
`try_decode_facets` in `tools/facet_decoder.py` (lines 152-164 and
323-334) and `attempt_facet_decode` in
`tools/dcm_decoder_experimental.py` (lines 287-298), generalized over
the delimiter value (the tools instantiate it with 9): walk the buffer
accumulating `current`; on the marker, append `current` to the output
only `if current` is non-empty; after the loop, append a final
non-empty `current`. -/
def segGo (marker : Nat) (current : List Nat) : List Nat → List (List Nat)
  | [] => if current.isEmpty then [] else [current]
  | b :: rest =>
    if b = marker then
      if current.isEmpty then segGo marker [] rest
      else current :: segGo marker [] rest
    else segGo marker (current ++ [b]) rest

/-- Marker-based segmentation of a facet payload (see `segGo`). -/
def segmentPayload (marker : Nat) (data : List Nat) : List (List Nat) :=
  segGo marker [] data

/-- Concatenation of segments with the marker byte re-inserted between
consecutive segments (the reconstruction described by the spec's
round-trip property). -/
def rejoin (marker : Nat) : List (List Nat) → List Nat
  | [] => []
  | [s] => s
  | s :: rest => s ++ marker :: rejoin marker rest

/-- A vertex coordinate triple.  The STL loaders parse each vertex as
three 32-bit floats; coordinates are modelled as rationals, which embed
every float value exactly. -/
abbrev Coord : Type := ℚ × ℚ × ℚ

/-- Python's `round(x, 6)`: rounding to 6 decimal digits.  (CPython
rounds ties to even on the scaled value; `round` on `ℚ` models the
rounding of the scaled coordinate to an integer.) -/
def round6 (x : ℚ) : ℚ :=
  ((round (x * 1000000) : ℤ) : ℚ) / 1000000

/-- The dedup key `(round(x, 6), round(y, 6), round(z, 6))` used by
`load_stl_faces_binary` / `load_stl_faces_ascii` in
`tools/facet_decoder.py` (lines 94 and 129). -/
def canonKey (v : Coord) : Coord :=
  (round6 v.1, round6 v.2.1, round6 v.2.2)

/-- One `vertex_map` lookup-or-insert of the STL loaders
(`tools/facet_decoder.py`, lines 95-98): if the key is already present
the existing index is used, otherwise the key is appended and receives
index `len(vertices)`.  The Python dict `vertex_map` maps each stored
key to its position in the `vertices` list, so the lookup is the index
of the key's first (only) occurrence in the list. -/
def canonIndex (vertices : List Coord) (k : Coord) : List Coord × Nat :=
  if k ∈ vertices then (vertices, @List.indexOf Coord instBEqOfDecidableEq k vertices)
  else (vertices ++ [k], vertices.length)

/-- Processing of one triangle of the raw stream: the three corner keys
are interned in order and the face becomes the triple of their indices
(`tools/facet_decoder.py`, lines 91-101 and 123-134; the binary and
ASCII loaders run the identical per-triangle loop on their parsed
coordinate streams). -/
def canonStep (vertices : List Coord) (t : Coord × Coord × Coord) :
    List Coord × (Nat × Nat × Nat) :=
  let r1 := canonIndex vertices (canonKey t.1)
  let r2 := canonIndex r1.1 (canonKey t.2.1)
  let r3 := canonIndex r2.1 (canonKey t.2.2)
  (r3.1, (r1.2, r2.2, r3.2))

/-- The loaders' main loop over the triangle stream, threading the
vertex list and collecting the face triples in order. -/
def canonAux (vertices : List Coord) :
    List (Coord × Coord × Coord) → List Coord × List (Nat × Nat × Nat)
  | [] => (vertices, [])
  | t :: ts =>
    let st := canonStep vertices t
    let rest := canonAux st.1 ts
    (rest.1, st.2 :: rest.2)

/-- `load_stl_faces_binary` / `load_stl_faces_ascii` from
`tools/facet_decoder.py` (lines 80-103 and 106-136), abstracted over the
already-parsed raw triangle stream: returns the deduplicated vertex-key
list and the face index triples.  (The Python functions return
`(faces, len(vertices))`; the vertex list itself is kept here so that
the face indices can be related to it.) -/
def load_stl_faces (tris : List (Coord × Coord × Coord)) :
    List Coord × List (Nat × Nat × Nat) :=
  canonAux [] tris

/-- The stream of rounded corner keys of a triangle stream, in
traversal order. -/
def keyStream (tris : List (Coord × Coord × Coord)) : List Coord :=
  (tris.map (fun t => [canonKey t.1, canonKey t.2.1, canonKey t.2.2])).flatten

/-- First-occurrence deduplication, keeping the first occurrence of each
element and the order of first occurrences: the order/identity contract
stated by the spec for the canonical vertex list. -/
def firstDedup {α : Type} [DecidableEq α] : List α → List α
  | [] => []
  | k :: rest => k :: firstDedup (rest.filter (fun x => decide (x ≠ k)))
termination_by l => l.length
decreasing_by
  simp only [List.length_cons]
  exact Nat.lt_succ_of_le (rest.length_filter_le _)

/-- The per-pair analysis record of `tools/batch_pair_analyzer.py`
(dataclass `PairAnalysis`, lines 43-78).  The float-valued statistics
fields (`key_entropy`, `facet_entropy`, `process_time`) and the hash
fields are elided; the fields relevant to the batch error-handling
claims are kept.  `key_first_64` models `key_first_64_hex` as the raw
first 64 key bytes. -/
structure PairAnalysis where
  dcm_path : String
  stl_path : String
  signature_hash : String
  facet_count : Nat
  vertex_count : Nat
  facet_bytes : Nat
  vertex_bytes : Nat
  key_first_64 : List Nat
  error : Option String
deriving DecidableEq

/-- The input of one pair as seen by `analyze_pair`: the outcome of
`load_dcm_data` (signature hash, facet count, facet payload, vertex
payload) and of `load_stl_vertices_raw` (reference vertex payload).
Loading is file I/O; any exception it raises is modelled as an
`Except.error` carrying the exception's message. -/
structure PairInput where
  dcm_path : String
  stl_path : String
  dcm_load : Except String (String × Nat × List Nat × List Nat)
  stl_load : Except String (List Nat)

/-- `analyze_pair` from `tools/batch_pair_analyzer.py` (lines 201-288):
loads both files; on a size mismatch records the mismatch in `error` and
truncates both payloads to the shared minimum; derives the XOR key and
fills the record.  Any exception (a failed load) is caught and yields a
record whose `error` field carries the message and whose data fields are
defaulted (lines 265-288).  `load_dcm_data` runs first, so its error
wins when both loads would fail. -/
def analyze_pair (inp : PairInput) : PairAnalysis :=
  match inp.dcm_load, inp.stl_load with
  | Except.ok (sig, fc, facet_data, dcm_vertex_data), Except.ok stl_vertex_data =>
    let t := analyze_pair_truncate dcm_vertex_data stl_vertex_data
    let xor_key := xorBytes t.1 t.2.1
    { dcm_path := inp.dcm_path
      stl_path := inp.stl_path
      signature_hash := sig
      facet_count := fc
      vertex_count := t.1.length / 12
      facet_bytes := facet_data.length
      vertex_bytes := t.1.length
      key_first_64 := xor_key.take 64
      error := t.2.2 }
  | Except.error e, _ =>
    { dcm_path := inp.dcm_path, stl_path := inp.stl_path, signature_hash := ""
      facet_count := 0, vertex_count := 0, facet_bytes := 0, vertex_bytes := 0
      key_first_64 := [], error := some e }
  | _, Except.error e =>
    { dcm_path := inp.dcm_path, stl_path := inp.stl_path, signature_hash := ""
      facet_count := 0, vertex_count := 0, facet_bytes := 0, vertex_bytes := 0
      key_first_64 := [], error := some e }

/-- The batch loop of `process_pairs` in `tools/batch_pair_analyzer.py`
(lines 316-350): every pair of the work list is analyzed in order and
every analysis record is appended to the results, whether or not its
`error` field is set (`analyze_pair` never raises — it catches every
exception internally). -/
def process_pairs (pairs : List PairInput) : List PairAnalysis :=
  pairs.map analyze_pair

/-- Python truthiness of `r.get('error')` as used by `analyze_database`
(`tools/batch_pair_analyzer.py`, line 362): `None` and the empty string
are falsy. -/
def errorTruthy : Option String → Bool
  | none => false
  | some e => !(e == "")

/-- `successful = [r for r in results if not r.get('error')]`
(`tools/batch_pair_analyzer.py`, line 362). -/
def successful_analyses (results : List PairAnalysis) : List PairAnalysis :=
  results.filter (fun r => !(errorTruthy r.error))

/-- The batch-level summary line of `analyze_database`
(`tools/batch_pair_analyzer.py`, line 363): the pair
`(len(successful), len(results) - len(successful))`. -/
def batch_summary (results : List PairAnalysis) : Nat × Nat :=
  ((successful_analyses results).length,
    results.length - (successful_analyses results).length)

/-- Correctness contract of one face against the final vertex list: each
component indexes the list and the indexed entry is the rounded key of
the corresponding corner of the source triangle. -/
def FaceMatches (V : List Coord) (t : Coord × Coord × Coord) (f : Nat × Nat × Nat) : Prop :=
  V[f.1]? = some (canonKey t.1) ∧
  V[f.2.1]? = some (canonKey t.2.1) ∧
  V[f.2.2]? = some (canonKey t.2.2)

/-- Vertex-list part of the loaders' loop: intern a stream of keys one
after the other. -/
def internKeys (vertices : List Coord) : List Coord → List Coord
  | [] => vertices
  | k :: ks => internKeys (canonIndex vertices k).1 ks

/-- Test fixture: two facets sharing the edge between `(1,0,0)` and
`(0,1,0)`, with 4 distinct vertex positions. -/
def sharedEdgeTris : List (Coord × Coord × Coord) :=
  [((0, 0, 0), (1, 0, 0), (0, 1, 0)), ((1, 0, 0), (1, 1, 0), (0, 1, 0))]

/-- Test fixture: a pair whose container fails to load (e.g. a malformed
container document). -/
def samplePairError : PairInput :=
  { dcm_path := "a.dcm", stl_path := "a.stl"
    dcm_load := Except.error "MalformedContainer", stl_load := Except.ok [] }

/-- Test fixture: a pair that loads successfully. -/
def samplePairOk : PairInput :=
  { dcm_path := "b.dcm", stl_path := "b.stl"
    dcm_load := Except.ok ("ABC123", 2, ([9, 1, 9], [1, 2, 3, 4]))
    stl_load := Except.ok [5, 6, 7, 8] }

/-! ## Theorems -/

theorem xorBytes_length (a b : List Nat) :
    (xorBytes a b).length = min a.length b.length := by
  simp [xorBytes]

theorem xorBytes_cancel_left :
    ∀ {a b : List Nat}, a.length = b.length → xorBytes a (xorBytes a b) = b
  | [], [], _ => rfl
  | x :: a, y :: b, h => by
    simp only [xorBytes, List.zipWith_cons_cons, Nat.xor_cancel_left]
    exact congrArg (y :: ·) (xorBytes_cancel_left (by simpa using h))

theorem xorBytes_cancel_right :
    ∀ {a b : List Nat}, a.length = b.length → xorBytes b (xorBytes a b) = a
  | [], [], _ => rfl
  | x :: a, y :: b, h => by
    simp only [xorBytes, List.zipWith_cons_cons]
    rw [Nat.xor_comm x y, Nat.xor_cancel_left]
    exact congrArg (x :: ·) (xorBytes_cancel_right (by simpa using h))

/-- C4: for equal-length payloads `P` and `R`, the derived key `P XOR R`
decrypts `P` to exactly `R` and decrypts `R` to exactly `P` (the XOR
transform is self-inverse). -/
theorem c4_xor_self_inverse (P R : List Nat) (h : P.length = R.length) :
    derive_xor_key P R = Except.ok (xorBytes P R) ∧
    decrypt_vertices P (xorBytes P R) = Except.ok R ∧
    decrypt_vertices R (xorBytes P R) = Except.ok P := by
  have hkey : (xorBytes P R).length = P.length := by
    simp [xorBytes_length, h]
  refine ⟨by simp [derive_xor_key, h], ?_, ?_⟩
  · have : ¬ (xorBytes P R).length < P.length := by omega
    simp only [decrypt_vertices, if_neg this]
    exact congrArg Except.ok (xorBytes_cancel_left h)
  · have : ¬ (xorBytes P R).length < R.length := by omega
    simp only [decrypt_vertices, if_neg this]
    exact congrArg Except.ok (xorBytes_cancel_right h)

theorem c4_witness :
    derive_xor_key [1, 2, 3] [7, 5, 9] = Except.ok (xorBytes [1, 2, 3] [7, 5, 9]) ∧
    decrypt_vertices [1, 2, 3] (xorBytes [1, 2, 3] [7, 5, 9]) = Except.ok [7, 5, 9] ∧
    decrypt_vertices [7, 5, 9] (xorBytes [1, 2, 3] [7, 5, 9]) = Except.ok [1, 2, 3] :=
  c4_xor_self_inverse [1, 2, 3] [7, 5, 9] (by decide)

/-- C3 fails as stated: `derive_xor_key` in `tools/dcm_decoder.py` does
not truncate mismatched payloads — it rejects the pair outright by
raising `ValueError`.  Concretely, payloads of lengths 2 and 1. -/
theorem c3_counterexample :
    derive_xor_key [0, 1] [0] = Except.error "Size mismatch: DCM=2, STL=1" := by
  rfl

/-- C3 (amended): in the known-plaintext attack and in the batch pair
analyzer a length mismatch leads to truncation of both payloads to the
shared minimum length together with a recorded warning (never silently);
the standalone decoder's `derive_xor_key`, however, rejects the pair
with an error instead of truncating. -/
theorem c3_truncation_with_warning (d s : List Nat) (h : d.length ≠ s.length) :
    kpa_truncate d s =
      (d.take (min d.length s.length), s.take (min d.length s.length),
        ["WARNING: Size mismatch! DCM=" ++ toString d.length ++
          ", STL=" ++ toString s.length]) ∧
    analyze_pair_truncate d s =
      (d.take (min d.length s.length), s.take (min d.length s.length),
        some ("Size mismatch: DCM=" ++ toString d.length ++
          ", STL=" ++ toString s.length)) ∧
    (d.take (min d.length s.length)).length = min d.length s.length ∧
    (s.take (min d.length s.length)).length = min d.length s.length ∧
    derive_xor_key d s =
      Except.error ("Size mismatch: DCM=" ++ toString d.length ++
        ", STL=" ++ toString s.length) := by
  refine ⟨by simp [kpa_truncate, h], by simp [analyze_pair_truncate, h], ?_, ?_,
    by simp [derive_xor_key, h]⟩
  · simp only [List.length_take]
    omega
  · simp only [List.length_take]
    omega

theorem c3_witness :
    kpa_truncate [0, 1] [0] = ([0], [0], ["WARNING: Size mismatch! DCM=2, STL=1"]) ∧
    analyze_pair_truncate [0, 1] [0] = ([0], [0], some "Size mismatch: DCM=2, STL=1") ∧
    ([0, 1].take (min 2 1)).length = min 2 1 ∧
    (([0] : List Nat).take (min 2 1)).length = min 2 1 ∧
    derive_xor_key [0, 1] [0] = Except.error "Size mismatch: DCM=2, STL=1" := by
  have h := c3_truncation_with_warning [0, 1] [0] (by decide)
  simpa using h

theorem segGo_mem (marker : Nat) :
    ∀ (l current : List Nat), marker ∉ current →
      ∀ s ∈ segGo marker current l, s ≠ [] ∧ marker ∉ s
  | [], current, hc, s, hs => by
    by_cases he : current.isEmpty
    · simp [segGo, he] at hs
    · simp only [segGo, if_neg he, List.mem_singleton] at hs
      subst hs
      exact ⟨fun h => he (by simp [h]), hc⟩
  | b :: rest, current, hc, s, hs => by
    by_cases hb : b = marker
    · by_cases he : current.isEmpty
      · simp only [segGo, if_pos hb, if_pos he] at hs
        exact segGo_mem marker rest [] (by simp) s hs
      · simp only [segGo, if_pos hb, if_neg he, List.mem_cons] at hs
        rcases hs with rfl | hs
        · exact ⟨fun h => he (by simp [h]), hc⟩
        · exact segGo_mem marker rest [] (by simp) s hs
    · simp only [segGo, if_neg hb] at hs
      have hc' : marker ∉ current ++ [b] := by
        simp only [List.mem_append, List.mem_singleton]
        rintro (h | h)
        · exact hc h
        · exact hb h.symm
      exact segGo_mem marker rest (current ++ [b]) hc' s hs

/-- C10: every segment produced by the facet decoders' marker-based
segmentation is non-empty and contains no marker byte; consecutive
markers and markers at either end of the payload contribute no empty
segments. -/
theorem c10_segments_nonempty_marker_free (marker : Nat) (data : List Nat)
    (s : List Nat) (hs : s ∈ segmentPayload marker data) :
    s ≠ [] ∧ marker ∉ s :=
  segGo_mem marker data [] (by simp) s hs

theorem c10_witness : ([1] : List Nat) ≠ [] ∧ 9 ∉ ([1] : List Nat) :=
  c10_segments_nonempty_marker_free 9 [9, 1, 9, 9, 2, 9] [1] (by decide)

/-- C7 fails as stated: for the payload `[9]` with marker 9 the
segmentation produces no segments, so no rejoining of segments can
reproduce the payload — the dropped empty segments lose marker bytes. -/
theorem c7_counterexample :
    rejoin 9 (segmentPayload 9 [9]) ≠ [9] := by
  decide

theorem segGo_append_free (marker : Nat) :
    ∀ (s : List Nat), marker ∉ s →
      ∀ (c l : List Nat), segGo marker c (s ++ l) = segGo marker (c ++ s) l
  | [], _, c, l => by simp
  | a :: s, hs, c, l => by
    have ha : ¬ a = marker := fun h => hs (by simp [h])
    have hs' : marker ∉ s := fun h => hs (List.mem_cons_of_mem _ h)
    have h1 : (a :: s) ++ l = a :: (s ++ l) := rfl
    have h2 : segGo marker c (a :: (s ++ l)) = segGo marker (c ++ [a]) (s ++ l) := by
      simp only [segGo, if_neg ha]
    have h3 : (c ++ [a]) ++ s = c ++ a :: s := by simp
    rw [h1, h2, segGo_append_free marker s hs' (c ++ [a]) l, h3]

theorem append_isEmpty_false (c s : List Nat) (hne : s ≠ []) :
    ¬ ((c ++ s).isEmpty = true) := by
  intro h
  rw [List.isEmpty_iff, List.append_eq_nil] at h
  exact hne h.2

theorem segGo_free (marker : Nat) (c s : List Nat) (hfree : marker ∉ s) :
    segGo marker c s = if (c ++ s).isEmpty then [] else [c ++ s] := by
  calc segGo marker c s = segGo marker c (s ++ []) := by rw [List.append_nil]
    _ = segGo marker (c ++ s) [] := segGo_append_free marker s hfree c []
    _ = if (c ++ s).isEmpty then [] else [c ++ s] := rfl

theorem segGo_rejoin_cons (marker : Nat) :
    ∀ (rest : List (List Nat)) (s c : List Nat), s ≠ [] → marker ∉ s →
      (∀ t ∈ rest, t ≠ [] ∧ marker ∉ t) →
      segGo marker c (rejoin marker (s :: rest)) = (c ++ s) :: rest
  | [], s, c, hne, hfree, _ => by
    have h0 : rejoin marker [s] = s := rfl
    rw [h0, segGo_free marker c s hfree, if_neg (append_isEmpty_false c s hne)]
  | t :: rest, s, c, hne, hfree, hall => by
    have hstep : rejoin marker (s :: t :: rest) = s ++ marker :: rejoin marker (t :: rest) := rfl
    rw [hstep, segGo_append_free marker s hfree c _]
    have h1 : segGo marker (c ++ s) (marker :: rejoin marker (t :: rest)) =
        (c ++ s) :: segGo marker [] (rejoin marker (t :: rest)) := by
      simp only [segGo, if_neg (append_isEmpty_false c s hne)]
      simp
    rw [h1, segGo_rejoin_cons marker rest t [] (hall t (by simp)).1 (hall t (by simp)).2
      (fun u hu => hall u (by simp [hu]))]
    simp

/-- C7 (amended): the round trip holds exactly for payloads in which the
marker byte never occurs at the start or the end and never twice in a
row — equivalently, payloads that are the marker-joined concatenation of
non-empty marker-free segments.  For such a payload, segmentation
returns exactly those segments and rejoining them with the marker
reproduces the payload; payloads with leading, trailing or consecutive
marker bytes lose those marker bytes in the round trip because empty
segments are discarded. -/
theorem c7_segmentation_round_trip (marker : Nat) (segs : List (List Nat))
    (h : ∀ s ∈ segs, s ≠ [] ∧ marker ∉ s) :
    segmentPayload marker (rejoin marker segs) = segs ∧
    rejoin marker (segmentPayload marker (rejoin marker segs)) = rejoin marker segs := by
  have hseg : segmentPayload marker (rejoin marker segs) = segs := by
    cases segs with
    | nil => rfl
    | cons s rest =>
      have := segGo_rejoin_cons marker rest s [] (h s (by simp)).1 (h s (by simp)).2
        (fun t ht => h t (by simp [ht]))
      simpa [segmentPayload] using this
  exact ⟨hseg, by rw [hseg]⟩

theorem c7_witness :
    segmentPayload 9 (rejoin 9 [[1], [2, 3]]) = [[1], [2, 3]] ∧
    rejoin 9 (segmentPayload 9 (rejoin 9 [[1], [2, 3]])) = rejoin 9 [[1], [2, 3]] :=
  c7_segmentation_round_trip 9 [[1], [2, 3]] (by decide)

theorem find?_range'_min (p : Nat → Bool) :
    ∀ (n s : Nat), (∃ k, s ≤ k ∧ k < s + n ∧ p k = true) →
      ∃ k, (List.range' s n).find? p = some k ∧ p k = true ∧ s ≤ k ∧ k < s + n ∧
        ∀ j, s ≤ j → j < k → p j = false
  | 0, s, h => by
    obtain ⟨k, h1, h2, _⟩ := h
    omega
  | n + 1, s, h => by
    have hr : List.range' s (n + 1) = s :: List.range' (s + 1) n := by
      simpa using List.range'_succ s n 1
    cases hps : p s with
    | true =>
      refine ⟨s, ?_, hps, Nat.le_refl s, by omega, fun j hj1 hj2 => absurd hj1 (by omega)⟩
      rw [hr, List.find?_cons_of_pos _ hps]
    | false =>
      obtain ⟨k, hk1, hk2, hk3⟩ := h
      have hks : k ≠ s := by
        intro he
        rw [he, hps] at hk3
        cases hk3
      obtain ⟨m, h1, h2, h3, h4, h5⟩ :=
        find?_range'_min p n (s + 1) ⟨k, by omega, by omega, hk3⟩
      refine ⟨m, ?_, h2, by omega, by omega, ?_⟩
      · rw [hr, List.find?_cons_of_neg _ (by simp [hps]), h1]
      · intro j hj1 hj2
        rcases Nat.eq_or_lt_of_le hj1 with heq | hlt
        · rw [← heq]
          exact hps
        · exact h5 j hlt hj2

/-- C2: whenever some candidate length `k₀` in `1..=min(256, len/2)` is a
full-buffer period, `find_repeating_pattern` returns a period `k` that is
itself a full-buffer period, is at most `k₀`, and is the shortest: every
smaller positive candidate fails the whole-buffer periodicity test.  In
particular a buffer whose shortest period is 8 is reported with period
8, never a proper multiple, and a candidate that only repeats on a
prefix is never accepted. -/
theorem c2_shortest_period (data : List Nat) (k₀ : Nat) (h1 : 1 ≤ k₀)
    (h2 : k₀ ≤ min 256 (data.length / 2)) (h3 : isPeriodicWith data k₀ = true) :
    ∃ k, find_repeating_pattern data = some k ∧ isPeriodicWith data k = true ∧
      1 ≤ k ∧ k ≤ k₀ ∧ ∀ j, 1 ≤ j → j < k → isPeriodicWith data j = false := by
  obtain ⟨k, hfind, hpk, hk1, _, hmin⟩ :=
    find?_range'_min (fun k => isPeriodicWith data k) (min 256 (data.length / 2)) 1
      ⟨k₀, h1, by omega, h3⟩
  have hkk0 : k ≤ k₀ := by
    by_contra hgt
    push_neg at hgt
    have hf := hmin k₀ h1 hgt
    rw [h3] at hf
    cases hf
  exact ⟨k, hfind, hpk, hk1, hkk0, hmin⟩

theorem c2_witness :
    ∃ k, find_repeating_pattern
        [0, 1, 2, 3, 4, 5, 6, 7, 0, 1, 2, 3, 4, 5, 6, 7, 0, 1, 2, 3, 4, 5, 6, 7] = some k ∧
      isPeriodicWith
        [0, 1, 2, 3, 4, 5, 6, 7, 0, 1, 2, 3, 4, 5, 6, 7, 0, 1, 2, 3, 4, 5, 6, 7] k = true ∧
      1 ≤ k ∧ k ≤ 8 ∧ ∀ j, 1 ≤ j → j < k →
        isPeriodicWith
          [0, 1, 2, 3, 4, 5, 6, 7, 0, 1, 2, 3, 4, 5, 6, 7, 0, 1, 2, 3, 4, 5, 6, 7] j = false :=
  c2_shortest_period _ 8 (by decide) (by decide) (by decide)

theorem nodup_all_eq_singleton {α : Type} (l : List α) (a : α) (hnd : l.Nodup)
    (hne : l ≠ []) (hall : ∀ x ∈ l, x = a) : l = [a] := by
  cases l with
  | nil => exact absurd rfl hne
  | cons x t =>
    have hx : x = a := hall x (by simp)
    have ht : t = [] := by
      rw [List.eq_nil_iff_forall_not_mem]
      intro y hy
      have hy' : y = a := hall y (by simp [hy])
      have hxt : x ∉ t := (List.nodup_cons.mp hnd).1
      have hxy : x = y := hx.trans hy'.symm
      exact hxt (hxy ▸ hy)
    rw [hx, ht]

theorem c8_blocks_low : ∀ i, i < 100 →
    vertex_block_key (List.replicate 1212 0)
      (List.replicate 1200 0 ++ List.replicate 12 1) i = List.replicate 12 0 := by
  intro i hi
  have hd : byteSlice (List.replicate 1212 (0 : Nat)) (12 * i) 12 = List.replicate 12 0 := by
    rw [byteSlice, List.drop_replicate, List.take_replicate]
    congr 1
    omega
  have hsd : List.drop (12 * i)
      (List.replicate 1200 (0 : Nat) ++ List.replicate 12 1) =
      List.replicate (1200 - 12 * i) 0 ++ List.replicate 12 1 := by
    rw [List.drop_append_of_le_length (by rw [List.length_replicate]; omega),
      List.drop_replicate]
  have hs : byteSlice (List.replicate 1200 (0 : Nat) ++ List.replicate 12 1)
      (12 * i) 12 = List.replicate 12 0 := by
    rw [byteSlice, hsd,
      List.take_append_of_le_length (by rw [List.length_replicate]; omega),
      List.take_replicate]
    congr 1
    omega
  rw [vertex_block_key, hd, hs]
  decide

theorem c8_block_100 :
    vertex_block_key (List.replicate 1212 0)
      (List.replicate 1200 0 ++ List.replicate 12 1) 100 = List.replicate 12 1 := by
  have hd : byteSlice (List.replicate 1212 (0 : Nat)) (12 * 100) 12 = List.replicate 12 0 := by
    rw [byteSlice, List.drop_replicate, List.take_replicate]
    norm_num
  have hs : byteSlice (List.replicate 1200 (0 : Nat) ++ List.replicate 12 1)
      (12 * 100) 12 = List.replicate 12 1 := by
    rw [byteSlice, (by rw [List.length_replicate] : (12 : Nat) * 100 =
      (List.replicate 1200 (0 : Nat)).length), List.drop_left, List.take_replicate]
    norm_num
  rw [vertex_block_key, hd, hs]
  decide

/-- C8 fails as stated: `analyze_vertex_by_vertex` computes block keys
only for the first `min(100, num_vertices)` vertex blocks, so a payload
pair of 101 blocks (1212 bytes) whose first 100 blocks share one key but
whose final block has a different key is still reported as
same-key-per-vertex. -/
theorem c8_counterexample :
    same_key_per_vertex (List.replicate 1212 0)
      (List.replicate 1200 0 ++ List.replicate 12 1) = true ∧
    100 < (List.replicate 1212 (0 : Nat)).length / 12 ∧
    vertex_block_key (List.replicate 1212 0)
        (List.replicate 1200 0 ++ List.replicate 12 1) 100 ≠
      vertex_block_key (List.replicate 1212 0)
        (List.replicate 1200 0 ++ List.replicate 12 1) 0 := by
  refine ⟨?_, by rw [List.length_replicate]; norm_num, ?_⟩
  · have hlen : (List.replicate 1212 (0 : Nat)).length / 12 = 101 := by
      rw [List.length_replicate]
    have hkeys : vertex_keys (List.replicate 1212 0)
        (List.replicate 1200 0 ++ List.replicate 12 1) =
        List.replicate 100 (List.replicate 12 0) := by
      rw [vertex_keys, hlen]
      rw [List.eq_replicate_iff]
      constructor
      · rw [List.length_map, List.length_range]
        norm_num
      · intro b hb
        obtain ⟨i, hi, rfl⟩ := List.mem_map.mp hb
        have hi' : i < 100 := by
          have := List.mem_range.mp hi
          omega
        exact c8_blocks_low i hi'
    have hded : (List.replicate 100 (List.replicate 12 (0 : Nat))).dedup =
        [List.replicate 12 0] := by
      apply nodup_all_eq_singleton _ _ (List.nodup_dedup _)
      · intro he
        have hnil := (List.dedup_eq_nil _).mp he
        rw [List.replicate_eq_nil_iff] at hnil
        norm_num at hnil
      · intro x hx
        have := List.mem_dedup.mp hx
        exact List.eq_of_mem_replicate this
    rw [same_key_per_vertex, hkeys, hded]
    rfl
  · rw [c8_block_100, c8_blocks_low 0 (by norm_num)]
    decide

/-- C8 (amended): the same-key confirmation quantifies over the sampled
blocks only — the first `min(100, num_vertices)` 12-byte blocks; it is
reported exactly when every sampled block key equals the first block's
key.  For payloads of at most 100 vertex blocks this coincides with the
claim's "all blocks of the entire payload". -/
theorem c8_same_key_sampled_blocks (dcm_data stl_data : List Nat)
    (h : 1 ≤ min 100 (dcm_data.length / 12)) :
    same_key_per_vertex dcm_data stl_data = true ↔
      ∀ i < min 100 (dcm_data.length / 12),
        vertex_block_key dcm_data stl_data i = vertex_block_key dcm_data stl_data 0 := by
  have hsame : same_key_per_vertex dcm_data stl_data = true ↔
      (vertex_keys dcm_data stl_data).dedup.length = 1 := by
    simp [same_key_per_vertex]
  have hmem0 : vertex_block_key dcm_data stl_data 0 ∈ vertex_keys dcm_data stl_data := by
    simp only [vertex_keys, List.mem_map]
    exact ⟨0, List.mem_range.mpr (by omega), rfl⟩
  rw [hsame]
  constructor
  · intro h1 i hi
    obtain ⟨a, ha⟩ := List.length_eq_one.mp h1
    have hmi : vertex_block_key dcm_data stl_data i ∈ vertex_keys dcm_data stl_data := by
      simp only [vertex_keys, List.mem_map]
      exact ⟨i, List.mem_range.mpr hi, rfl⟩
    have h2 : vertex_block_key dcm_data stl_data i = a := by
      have hm := List.mem_dedup.mpr hmi
      rw [ha] at hm
      simpa using hm
    have h3 : vertex_block_key dcm_data stl_data 0 = a := by
      have hm := List.mem_dedup.mpr hmem0
      rw [ha] at hm
      simpa using hm
    rw [h2, h3]
  · intro hall
    have hLne : vertex_keys dcm_data stl_data ≠ [] := by
      intro he
      have hlen : (vertex_keys dcm_data stl_data).length = 0 := by rw [he]; rfl
      rw [vertex_keys, List.length_map, List.length_range] at hlen
      omega
    have hdne : (vertex_keys dcm_data stl_data).dedup ≠ [] := by
      intro he
      exact hLne ((List.dedup_eq_nil _).mp he)
    have heq : (vertex_keys dcm_data stl_data).dedup =
        [vertex_block_key dcm_data stl_data 0] := by
      apply nodup_all_eq_singleton _ _ (List.nodup_dedup _) hdne
      intro x hx
      have hxL : x ∈ vertex_keys dcm_data stl_data := List.mem_dedup.mp hx
      rw [vertex_keys] at hxL
      obtain ⟨i, hi, rfl⟩ := List.mem_map.mp hxL
      exact hall i (List.mem_range.mp hi)
    rw [heq]
    rfl

theorem c8_witness :
    same_key_per_vertex (List.replicate 24 5) (List.replicate 24 3) = true :=
  (c8_same_key_sampled_blocks (List.replicate 24 5) (List.replicate 24 3)
    (by decide)).mpr (by decide)

/-- C9: the batch loop is fault-isolated.  Every pair of the work list
produces exactly one analysis record, in order; a pair whose container
load fails yields a record carrying that error, a pair whose reference
load fails (after a successful container load) yields a record carrying
that error, and the remaining pairs are analyzed regardless; the
batch-level summary's success and error counts always add up to the
total number of pairs in the batch. -/
theorem c9_batch_fault_isolation (pairs : List PairInput) :
    (process_pairs pairs).length = pairs.length ∧
    (∀ i : Nat, (process_pairs pairs)[i]? = (pairs[i]?).map analyze_pair) ∧
    (∀ inp : PairInput, ∀ e : String, inp.dcm_load = Except.error e →
      (analyze_pair inp).error = some e) ∧
    (∀ inp : PairInput, ∀ e : String,
      ∀ x : String × Nat × List Nat × List Nat, inp.dcm_load = Except.ok x →
      inp.stl_load = Except.error e → (analyze_pair inp).error = some e) ∧
    (batch_summary (process_pairs pairs)).1 + (batch_summary (process_pairs pairs)).2 =
      pairs.length := by
  refine ⟨by simp [process_pairs], ?_, ?_, ?_, ?_⟩
  · intro i
    simp [process_pairs]
  · intro inp e he
    simp [analyze_pair, he]
  · intro inp e x hx he
    obtain ⟨sig, fc, facet_data, dcm_vertex_data⟩ := x
    simp [analyze_pair, hx, he]
  · have hle : (successful_analyses (process_pairs pairs)).length ≤
        (process_pairs pairs).length := List.length_filter_le _ _
    have hlen : (process_pairs pairs).length = pairs.length := by simp [process_pairs]
    simp only [batch_summary]
    omega

theorem c9_witness :
    (process_pairs [samplePairError, samplePairOk]).length = 2 ∧
    (analyze_pair samplePairError).error = some "MalformedContainer" ∧
    batch_summary (process_pairs [samplePairError, samplePairOk]) = (1, 1) :=
  ⟨(c9_batch_fault_isolation [samplePairError, samplePairOk]).1,
    (c9_batch_fault_isolation [samplePairError, samplePairOk]).2.2.1 samplePairError
      "MalformedContainer" rfl,
    by decide⟩

theorem xorBytes_getD (a b : List Nat) (i : Nat) (ha : i < a.length) (hb : i < b.length) :
    (xorBytes a b).getD i 0 = a.getD i 0 ^^^ b.getD i 0 := by
  simp only [List.getD_eq_getElem?_getD, xorBytes, List.getElem?_zipWith,
    List.getElem?_eq_getElem ha, List.getElem?_eq_getElem hb]
  rfl

theorem getD_take (l : List Nat) (k j : Nat) (h : j < k) :
    (l.take k).getD j 0 = l.getD j 0 := by
  simp only [List.getD_eq_getElem?_getD, List.getElem?_take, if_pos h]

theorem match_count_self : ∀ l : List Nat, match_count l l = l.length
  | [] => rfl
  | x :: l => by
    have ih := match_count_self l
    simp only [match_count] at ih
    simp only [match_count, List.zip_cons_cons, List.countP_cons, List.length_cons, ih]
    simp

theorem replay_decrypt_zero_pattern (d : List Nat) : replay_decrypt d [0] = d := by
  apply List.ext_getElem
  · simp [replay_decrypt]
  · intro i h1 h2
    simp [replay_decrypt, Nat.mod_one, List.getElem?_eq_getElem h2]

theorem match_count_append (a b c d : List Nat) (h : a.length = b.length) :
    match_count (a ++ c) (b ++ d) = match_count a b + match_count c d := by
  simp [match_count, List.zip_append h, List.countP_append]

/-- C1 fails as stated: the success gate accepts any replay that matches
strictly more than 99.9% of the reference bytes, not only a 100% match.
A synthetic pair with exactly one corrupted byte out of 1001 (match
99.9001%) is reported as a success even though the replay does not
reproduce the reference. -/
theorem c1_counterexample :
    kpa_reports_success
        (replay_decrypt (List.replicate 1000 0 ++ [1]) [0]) (List.replicate 1001 0) = true ∧
    match_count (replay_decrypt (List.replicate 1000 0 ++ [1]) [0])
        (List.replicate 1001 0) <
      (List.replicate 1001 (0 : Nat)).length := by
  have hs : (List.replicate 1001 (0 : Nat)) = List.replicate 1000 0 ++ [0] := by
    rw [(by norm_num : (1001 : Nat) = 1000 + 1), List.replicate_succ']
  have hm : match_count (List.replicate 1000 0 ++ [1]) (List.replicate 1001 0) = 1000 := by
    rw [hs, match_count_append _ _ _ _ rfl, match_count_self, List.length_replicate]
    norm_num [match_count]
  have hr : replay_decrypt (List.replicate 1000 0 ++ [1]) [0] =
      List.replicate 1000 0 ++ [1] := replay_decrypt_zero_pattern _
  constructor
  · rw [hr]
    simp only [kpa_reports_success, hm, List.length_replicate, decide_eq_true_eq]
    norm_num
  · rw [hr, hm, List.length_replicate]
    norm_num

/-- C1 (amended): the success gate of the decryption validation reports
success exactly when the replay matches strictly more than 99.9% of the
reference bytes, so a sub-100% replay can still be reported as a success
(see the counterexample).  In the attack's own, unmodified flow, the
replayed pattern is the pattern found by `find_repeating_pattern` on the
full XOR key of the pair, truncated by `analyze_xor_key` to its first 64
bytes; whenever the found shortest period is at most 64 bytes, the
stored pattern is the whole period, the replay reproduces the reference
with a 100% byte match, and the run is reported as a success (for longer
periods the replay only uses the period's first 64 bytes, and no such
guarantee holds). -/
theorem c1_success_gate (dcm_data stl_data : List Nat)
    (h : dcm_data.length = stl_data.length) (k : Nat)
    (hk : find_repeating_pattern (xorBytes dcm_data stl_data) = some k)
    (hk64 : k ≤ 64) :
    repeating_pattern_stored (xorBytes dcm_data stl_data) k =
      (xorBytes dcm_data stl_data).take k ∧
    replay_decrypt dcm_data (repeating_pattern_stored (xorBytes dcm_data stl_data) k) =
      stl_data ∧
    match_count
      (replay_decrypt dcm_data (repeating_pattern_stored (xorBytes dcm_data stl_data) k))
      stl_data = stl_data.length ∧
    kpa_reports_success
      (replay_decrypt dcm_data (repeating_pattern_stored (xorBytes dcm_data stl_data) k))
      stl_data = true := by
  have hstored : repeating_pattern_stored (xorBytes dcm_data stl_data) k =
      (xorBytes dcm_data stl_data).take k := by
    rw [repeating_pattern_stored, List.take_take]
    congr 1
    omega
  have hkl : (xorBytes dcm_data stl_data).length = dcm_data.length := by
    simp [xorBytes_length, h]
  have hmem := List.mem_of_find?_eq_some hk
  rw [List.mem_range'_1] at hmem
  have hper : isPeriodicWith (xorBytes dcm_data stl_data) k = true := List.find?_some hk
  have hk1 : 1 ≤ k := hmem.1
  have hk2 : k ≤ (xorBytes dcm_data stl_data).length / 2 := by
    have := hmem.2
    omega
  have hkn : k ≤ dcm_data.length := by
    rw [hkl] at hk2
    omega
  have hn2 : 2 ≤ dcm_data.length := by
    rw [hkl] at hk2
    omega
  have hplen : ((xorBytes dcm_data stl_data).take k).length = k := by
    rw [List.length_take, hkl]
    omega
  have hper' : ∀ i, i < dcm_data.length →
      (xorBytes dcm_data stl_data).getD i 0 = (xorBytes dcm_data stl_data).getD (i % k) 0 := by
    intro i hi
    have hmm := (List.all_eq_true.mp hper) i (List.mem_range.mpr (by omega))
    simpa using hmm
  have hrepl : replay_decrypt dcm_data ((xorBytes dcm_data stl_data).take k) = stl_data := by
    apply List.ext_getElem
    · simp [replay_decrypt, h]
    · intro i h1 h2
      have hi : i < dcm_data.length := by
        simpa [replay_decrypt] using h1
      have hstep1 : (replay_decrypt dcm_data ((xorBytes dcm_data stl_data).take k))[i] =
          dcm_data.getD i 0 ^^^
            ((xorBytes dcm_data stl_data).take k).getD
              (i % ((xorBytes dcm_data stl_data).take k).length) 0 := by
        simp [replay_decrypt, List.getElem_map, List.getElem_range]
      rw [hstep1, hplen]
      have himk : i % k < k := Nat.mod_lt i (by omega)
      rw [getD_take _ _ _ himk, ← hper' i hi,
        xorBytes_getD dcm_data stl_data i hi (by omega),
        Nat.xor_cancel_left, List.getD_eq_getElem stl_data 0 h2]
  refine ⟨hstored, ?_, ?_, ?_⟩
  · rw [hstored]
    exact hrepl
  · rw [hstored, hrepl, match_count_self]
  · rw [hstored, hrepl]
    have h0 : 0 < stl_data.length := by omega
    simp only [kpa_reports_success, match_count_self, decide_eq_true_eq]
    omega

theorem c1_witness :
    repeating_pattern_stored (xorBytes [1, 2, 1, 2] [0, 0, 0, 0]) 2 =
      (xorBytes [1, 2, 1, 2] [0, 0, 0, 0]).take 2 ∧
    replay_decrypt [1, 2, 1, 2]
      (repeating_pattern_stored (xorBytes [1, 2, 1, 2] [0, 0, 0, 0]) 2) = [0, 0, 0, 0] ∧
    match_count
      (replay_decrypt [1, 2, 1, 2]
        (repeating_pattern_stored (xorBytes [1, 2, 1, 2] [0, 0, 0, 0]) 2))
      [0, 0, 0, 0] = ([0, 0, 0, 0] : List Nat).length ∧
    kpa_reports_success
      (replay_decrypt [1, 2, 1, 2]
        (repeating_pattern_stored (xorBytes [1, 2, 1, 2] [0, 0, 0, 0]) 2))
      [0, 0, 0, 0] = true :=
  c1_success_gate [1, 2, 1, 2] [0, 0, 0, 0] rfl 2 (by decide) (by decide)

/-- C5: the Shannon entropy computed by `calculate_entropy` lies in
`[0, 8]` bits for every non-empty byte sequence, and is exactly 0 for
every non-empty sequence whose bytes are all equal. -/
theorem c5_entropy_range (data : List Nat) (hne : data ≠ []) (hb : ∀ b ∈ data, b < 256) :
    (0 ≤ calculate_entropy data ∧ calculate_entropy data ≤ 8) ∧
    ((∃ c, ∀ b ∈ data, b = c) → calculate_entropy data = 0) := by
  have hn : 0 < data.length := List.length_pos.mpr hne
  have hn0 : data.length ≠ 0 := by omega
  have hnR : (0 : ℝ) < (data.length : ℝ) := by exact_mod_cast hn
  have hE : calculate_entropy data =
      -∑ b ∈ data.toFinset,
        ((data.count b : ℝ) / (data.length : ℝ)) *
          Real.logb 2 ((data.count b : ℝ) / (data.length : ℝ)) := by
    simp [calculate_entropy, hn0]
  have hp_pos : ∀ b ∈ data.toFinset,
      (0 : ℝ) < (data.count b : ℝ) / (data.length : ℝ) := by
    intro b hbT
    apply div_pos _ hnR
    exact_mod_cast List.count_pos_iff.mpr (List.mem_toFinset.mp hbT)
  have hp_le1 : ∀ b ∈ data.toFinset, (data.count b : ℝ) / (data.length : ℝ) ≤ 1 := by
    intro b hbT
    rw [div_le_one hnR]
    exact_mod_cast List.count_le_length b data
  have hsum : ∑ b ∈ data.toFinset, (data.count b : ℝ) / (data.length : ℝ) = 1 := by
    rw [← Finset.sum_div, div_eq_one_iff_eq (ne_of_gt hnR)]
    exact_mod_cast List.sum_toFinset_count_eq_length data
  refine ⟨⟨?_, ?_⟩, ?_⟩
  · rw [hE, neg_nonneg]
    apply Finset.sum_nonpos
    intro b hbT
    exact mul_nonpos_iff.mpr (Or.inl ⟨le_of_lt (hp_pos b hbT),
      Real.logb_nonpos one_lt_two (le_of_lt (hp_pos b hbT)) (hp_le1 b hbT)⟩)
  · have hlog2 : (0 : ℝ) < Real.log 2 := Real.log_pos one_lt_two
    have hstep : calculate_entropy data =
        ∑ b ∈ data.toFinset,
          ((data.count b : ℝ) / (data.length : ℝ)) *
            Real.logb 2 (((data.count b : ℝ) / (data.length : ℝ))⁻¹) := by
      rw [hE, ← Finset.sum_neg_distrib]
      apply Finset.sum_congr rfl
      intro b hbT
      rw [Real.logb_inv]
      ring
    have hconc : ConcaveOn ℝ (Set.Ioi (0 : ℝ)) Real.log := strictConcaveOn_log_Ioi.concaveOn
    have hj := hconc.le_map_sum
      (p := fun b => (((data.count b : ℝ) / (data.length : ℝ)))⁻¹)
      (fun b hbT => le_of_lt (hp_pos b hbT)) hsum
      (fun b hbT => Set.mem_Ioi.mpr (inv_pos.mpr (hp_pos b hbT)))
    have hinner : ∑ b ∈ data.toFinset,
        ((data.count b : ℝ) / (data.length : ℝ)) •
          (((data.count b : ℝ) / (data.length : ℝ)))⁻¹ = (data.toFinset.card : ℝ) := by
      rw [Finset.sum_congr rfl
        (fun b hbT => by
          rw [smul_eq_mul, mul_inv_cancel₀ (ne_of_gt (hp_pos b hbT))])]
      simp
    rw [hinner] at hj
    have hcard_pos : 0 < data.toFinset.card := by
      apply Finset.card_pos.mpr
      obtain ⟨b0, hb0⟩ := List.exists_mem_of_ne_nil data hne
      exact ⟨b0, List.mem_toFinset.mpr hb0⟩
    have hcard256 : data.toFinset.card ≤ 256 := by
      have hsub : data.toFinset ⊆ Finset.range 256 := by
        intro x hx
        exact Finset.mem_range.mpr (hb x (List.mem_toFinset.mp hx))
      simpa using Finset.card_le_card hsub
    have hlogb256 : Real.logb 2 (256 : ℝ) = 8 := by
      have h256 : (256 : ℝ) = 2 ^ (8 : ℕ) := by norm_num
      rw [h256, Real.logb_pow, Real.logb_self_eq_one one_lt_two]
      norm_num
    calc calculate_entropy data
        = ∑ b ∈ data.toFinset,
            ((data.count b : ℝ) / (data.length : ℝ)) *
              Real.logb 2 (((data.count b : ℝ) / (data.length : ℝ))⁻¹) := hstep
      _ = (∑ b ∈ data.toFinset,
            ((data.count b : ℝ) / (data.length : ℝ)) *
              Real.log (((data.count b : ℝ) / (data.length : ℝ))⁻¹)) / Real.log 2 := by
          rw [Finset.sum_div]
          apply Finset.sum_congr rfl
          intro b hbT
          rw [Real.logb, mul_div_assoc]
      _ ≤ Real.log (data.toFinset.card : ℝ) / Real.log 2 := by
          apply (div_le_div_iff_of_pos_right hlog2).mpr
          simpa [smul_eq_mul] using hj
      _ = Real.logb 2 (data.toFinset.card : ℝ) := by rw [Real.logb]
      _ ≤ Real.logb 2 (256 : ℝ) := by
          apply Real.logb_le_logb_of_le one_lt_two
          · exact_mod_cast hcard_pos
          · exact_mod_cast hcard256
      _ = 8 := hlogb256
  · rintro ⟨c, hc⟩
    have hcd : c ∈ data := by
      obtain ⟨b0, hb0⟩ := List.exists_mem_of_ne_nil data hne
      rw [← hc b0 hb0]
      exact hb0
    have hT : data.toFinset = {c} := by
      ext x
      simp only [List.mem_toFinset, Finset.mem_singleton]
      exact ⟨fun hx => hc x hx, fun hx => hx ▸ hcd⟩
    have hcount : data.count c = data.length :=
      List.count_eq_length.mpr (fun b hbm => (hc b hbm).symm)
    rw [hE, hT, Finset.sum_singleton, hcount, div_self (ne_of_gt hnR), Real.logb_one]
    simp

theorem c5_witness :
    (0 ≤ calculate_entropy [7, 7, 7] ∧ calculate_entropy [7, 7, 7] ≤ 8) ∧
    ((∃ c, ∀ b ∈ ([7, 7, 7] : List Nat), b = c) → calculate_entropy [7, 7, 7] = 0) :=
  c5_entropy_range [7, 7, 7] (by decide) (by decide)

theorem canonIndex_spec (V : List Coord) (k : Coord) :
    ∃ T, (canonIndex V k).1 = V ++ T ∧
      ((canonIndex V k).1)[(canonIndex V k).2]? = some k := by
  by_cases hk : k ∈ V
  · refine ⟨[], by simp [canonIndex, hk], ?_⟩
    simp only [canonIndex, if_pos hk]
    have hlt := List.indexOf_lt_length.mpr hk
    rw [List.getElem?_eq_getElem hlt, List.getElem_indexOf hlt]
  · refine ⟨[k], by simp [canonIndex, hk], ?_⟩
    simp only [canonIndex, if_neg hk]
    exact List.getElem?_concat_length V k

theorem getElem?_mono_append (V T : List Coord) (i : Nat) (x : Coord)
    (hx : V[i]? = some x) : (V ++ T)[i]? = some x := by
  have hlt : i < V.length := by
    by_contra hge
    push_neg at hge
    rw [List.getElem?_eq_none hge] at hx
    cases hx
  rw [List.getElem?_append, if_pos hlt]
  exact hx

theorem faceMatches_mono (V T : List Coord) (t : Coord × Coord × Coord)
    (f : Nat × Nat × Nat) (h : FaceMatches V t f) : FaceMatches (V ++ T) t f :=
  ⟨getElem?_mono_append V T _ _ h.1, getElem?_mono_append V T _ _ h.2.1,
    getElem?_mono_append V T _ _ h.2.2⟩

theorem internKeys_decomp : ∀ (ks : List Coord) (V : List Coord),
    ∃ T, internKeys V ks = V ++ T
  | [], V => ⟨[], by simp [internKeys]⟩
  | k :: ks, V => by
    obtain ⟨T1, hT1, _⟩ := canonIndex_spec V k
    obtain ⟨T2, hT2⟩ := internKeys_decomp ks (canonIndex V k).1
    exact ⟨T1 ++ T2, by rw [internKeys, hT2, hT1, List.append_assoc]⟩

theorem internKeys_append : ∀ (a b : List Coord) (V : List Coord),
    internKeys V (a ++ b) = internKeys (internKeys V a) b
  | [], b, V => by simp [internKeys]
  | k :: a, b, V => by
    simp only [List.cons_append, internKeys]
    exact internKeys_append a b (canonIndex V k).1

theorem canonStep_fst (V : List Coord) (t : Coord × Coord × Coord) :
    (canonStep V t).1 = internKeys V [canonKey t.1, canonKey t.2.1, canonKey t.2.2] := rfl

theorem keyStream_cons (t : Coord × Coord × Coord) (ts : List (Coord × Coord × Coord)) :
    keyStream (t :: ts) =
      [canonKey t.1, canonKey t.2.1, canonKey t.2.2] ++ keyStream ts := by
  simp [keyStream]

theorem canonAux_fst : ∀ (ts : List (Coord × Coord × Coord)) (V : List Coord),
    (canonAux V ts).1 = internKeys V (keyStream ts)
  | [], V => by simp [canonAux, keyStream, internKeys]
  | t :: ts, V => by
    rw [keyStream_cons, internKeys_append, ← canonStep_fst]
    exact canonAux_fst ts (canonStep V t).1

theorem internKeys_firstDedup : ∀ (ks : List Coord) (V : List Coord),
    internKeys V ks = V ++ firstDedup (ks.filter (fun x => decide (x ∉ V)))
  | [], V => by simp [internKeys, firstDedup]
  | k :: ks, V => by
    by_cases hk : k ∈ V
    · have hd : (decide (k ∉ V) : Bool) = false := by simp [hk]
      have h1 : internKeys V (k :: ks) = internKeys V ks := by
        simp [internKeys, canonIndex, hk]
      rw [h1, internKeys_firstDedup ks V]
      congr 2
      simp [List.filter, hd]
    · have hd : (decide (k ∉ V) : Bool) = true := by simp [hk]
      have h1 : internKeys V (k :: ks) = internKeys (V ++ [k]) ks := by
        simp [internKeys, canonIndex, hk]
      rw [h1, internKeys_firstDedup ks (V ++ [k])]
      have hfil : (k :: ks).filter (fun x => decide (x ∉ V)) =
          k :: ks.filter (fun x => decide (x ∉ V)) := by
        simp [List.filter, hd]
      rw [hfil, firstDedup, List.filter_filter]
      have hpt : ∀ x ∈ ks, (decide (x ∉ V ++ [k]) : Bool) =
          (decide (x ≠ k) && decide (x ∉ V)) := by
        intro x _
        by_cases h1x : x = k <;> by_cases h2x : x ∈ V <;>
          simp [h1x, h2x, List.mem_append]
      rw [List.filter_congr hpt, List.append_assoc, List.singleton_append]

theorem mem_firstDedup {α : Type} [DecidableEq α] :
    ∀ (n : Nat) (l : List α), l.length ≤ n → ∀ x, x ∈ firstDedup l → x ∈ l
  | 0, l, hl, x, hx => by
    have : l = [] := by
      cases l with
      | nil => rfl
      | cons a t => simp at hl
    rw [this] at hx
    simp [firstDedup] at hx
  | n + 1, l, hl, x, hx => by
    cases l with
    | nil => simp [firstDedup] at hx
    | cons k rest =>
      rw [firstDedup] at hx
      rcases List.mem_cons.mp hx with rfl | hx'
      · exact List.mem_cons_self _ _
      · have hlen : (rest.filter (fun y => decide (y ≠ k))).length ≤ n := by
          have h1 := rest.length_filter_le (fun y => decide (y ≠ k))
          simp only [List.length_cons] at hl
          omega
        have hx'' := mem_firstDedup n _ hlen x hx'
        exact List.mem_cons_of_mem _ (List.mem_of_mem_filter hx'')

theorem nodup_firstDedup {α : Type} [DecidableEq α] :
    ∀ (n : Nat) (l : List α), l.length ≤ n → (firstDedup l).Nodup
  | 0, l, hl => by
    have : l = [] := by
      cases l with
      | nil => rfl
      | cons a t => simp at hl
    rw [this]
    simp [firstDedup]
  | n + 1, l, hl => by
    cases l with
    | nil => simp [firstDedup]
    | cons k rest =>
      rw [firstDedup, List.nodup_cons]
      have hlen : (rest.filter (fun y => decide (y ≠ k))).length ≤ n := by
        have h1 := rest.length_filter_le (fun y => decide (y ≠ k))
        simp only [List.length_cons] at hl
        omega
      refine ⟨?_, nodup_firstDedup n _ hlen⟩
      intro hmem
      have hk := mem_firstDedup n _ hlen k hmem
      have := List.of_mem_filter hk
      simp at this

theorem canonAux_faces : ∀ (ts : List (Coord × Coord × Coord)) (V : List Coord),
    List.Forall₂ (FaceMatches (canonAux V ts).1) ts (canonAux V ts).2
  | [], V => List.Forall₂.nil
  | t :: ts, V => by
    obtain ⟨T1, hT1, hg1⟩ := canonIndex_spec V (canonKey t.1)
    obtain ⟨T2, hT2, hg2⟩ := canonIndex_spec (canonIndex V (canonKey t.1)).1 (canonKey t.2.1)
    obtain ⟨T3, hT3, hg3⟩ :=
      canonIndex_spec (canonIndex (canonIndex V (canonKey t.1)).1 (canonKey t.2.1)).1
        (canonKey t.2.2)
    have hface : FaceMatches (canonStep V t).1 t (canonStep V t).2 := by
      refine ⟨?_, ?_, ?_⟩
      · show (canonStep V t).1[(canonIndex V (canonKey t.1)).2]? = some (canonKey t.1)
        have : (canonStep V t).1 =
            ((canonIndex V (canonKey t.1)).1 ++ T2) ++ T3 := by
          show (canonIndex (canonIndex (canonIndex V (canonKey t.1)).1 (canonKey t.2.1)).1
            (canonKey t.2.2)).1 = _
          rw [hT3, hT2]
        rw [this]
        exact getElem?_mono_append _ _ _ _ (getElem?_mono_append _ _ _ _ hg1)
      · show (canonStep V t).1[(canonIndex (canonIndex V (canonKey t.1)).1
          (canonKey t.2.1)).2]? = some (canonKey t.2.1)
        have : (canonStep V t).1 =
            (canonIndex (canonIndex V (canonKey t.1)).1 (canonKey t.2.1)).1 ++ T3 := by
          show (canonIndex (canonIndex (canonIndex V (canonKey t.1)).1 (canonKey t.2.1)).1
            (canonKey t.2.2)).1 = _
          rw [hT3]
        rw [this]
        exact getElem?_mono_append _ _ _ _ hg2
      · exact hg3
    obtain ⟨T4, hT4⟩ := internKeys_decomp (keyStream ts) (canonStep V t).1
    have hpre : (canonAux (canonStep V t).1 ts).1 = (canonStep V t).1 ++ T4 := by
      rw [canonAux_fst]
      exact hT4
    have hcons : canonAux V (t :: ts) =
        ((canonAux (canonStep V t).1 ts).1,
          (canonStep V t).2 :: (canonAux (canonStep V t).1 ts).2) := rfl
    rw [hcons]
    exact List.Forall₂.cons
      (by rw [hpre]; exact faceMatches_mono _ _ _ _ hface)
      (canonAux_faces ts (canonStep V t).1)

/-- C6: vertex canonicalization deduplicates the raw triangle stream's
corners by their 6-decimal-rounded coordinates, keeping the first
occurrence of each distinct rounded key in stream order (the vertex list
is exactly the first-occurrence deduplication of the key stream and has
no duplicates); every face is the triple of indices of its corners'
rounded keys in that list, one face per input triangle.  In particular
the two-facet shared-edge fixture canonicalizes to exactly 4 vertices
and 2 faces whose index triples reference the shared vertices. -/
theorem c6_vertex_canonicalization (tris : List (Coord × Coord × Coord)) :
    (load_stl_faces tris).1 = firstDedup (keyStream tris) ∧
    ((load_stl_faces tris).1).Nodup ∧
    List.Forall₂ (FaceMatches (load_stl_faces tris).1) tris (load_stl_faces tris).2 ∧
    ((load_stl_faces tris).2).length = tris.length ∧
    load_stl_faces sharedEdgeTris =
      ([(0, 0, 0), (1, 0, 0), (0, 1, 0), (1, 1, 0)], [(0, 1, 2), (1, 3, 2)]) := by
  have hfst : (load_stl_faces tris).1 = firstDedup (keyStream tris) := by
    rw [load_stl_faces, canonAux_fst, internKeys_firstDedup]
    have : (keyStream tris).filter (fun x => decide (x ∉ ([] : List Coord))) =
        keyStream tris := by
      rw [List.filter_congr (fun x _ => by simp : ∀ x ∈ keyStream tris,
        (decide (x ∉ ([] : List Coord)) : Bool) = true)]
      exact List.filter_true _
    rw [this]
    rfl
  have hfaces := canonAux_faces tris []
  refine ⟨hfst, ?_, hfaces, (List.Forall₂.length_eq hfaces).symm, ?_⟩
  · rw [hfst]
    exact nodup_firstDedup (keyStream tris).length _ (Nat.le_refl _)
  · have h0 : round6 0 = 0 := by norm_num [round6]
    have h1 : round6 1 = 1 := by norm_num [round6]
    simp only [sharedEdgeTris, load_stl_faces, canonAux, canonStep, canonKey, h0, h1]
    decide

theorem c6_witness :
    load_stl_faces sharedEdgeTris =
      ([(0, 0, 0), (1, 0, 0), (0, 1, 0), (1, 1, 0)], [(0, 1, 2), (1, 3, 2)]) :=
  (c6_vertex_canonicalization []).2.2.2.2
